import Mathlib

/-!
Shallow embedding of `src/modules/mmap_store.py` (the ultra mmap key-value
store): the on-disk format constants, the builder `build_sequence_store`
(modelled as a trace of file-open and file-write events plus an optional
raised error), and the reader `SequenceMmapStore` (header parsing, record
slicing, binary search, `get`, `__getitem__`, `close`).

Bytes are modelled as `List Nat` (each element a byte value); Python `int`
loop indices are `Int`; Python exceptions are explicit error values.
-/

/-- Equality of `Except` results is decidable (needed to evaluate claims on
concrete stores). -/
instance {ε α : Type} [DecidableEq ε] [DecidableEq α] : DecidableEq (Except ε α)
  | .ok a, .ok b =>
    if h : a = b then isTrue (by rw [h]) else isFalse (by intro hc; cases hc; exact h rfl)
  | .ok _, .error _ => isFalse (by intro hc; cases hc)
  | .error _, .ok _ => isFalse (by intro hc; cases hc)
  | .error a, .error b =>
    if h : a = b then isTrue (by rw [h]) else isFalse (by intro hc; cases hc; exact h rfl)

/-- Strict lexicographic order on byte strings: Python `bytes.__lt__`. -/
def bytesLt : List Nat → List Nat → Bool
  | [], [] => false
  | [], _ :: _ => true
  | _ :: _, [] => false
  | a :: as, b :: bs => if a < b then true else if b < a then false else bytesLt as bs

/-- The 8-byte magic tag `b"ULTRAMM1"`. -/
def MAGIC : List Nat := [85, 76, 84, 82, 65, 77, 77, 49]

/-- Little-endian 4-byte encoding of an unsigned 32-bit field (`struct "<I"`);
overflow wraps via explicit `% 256` arithmetic. -/
def le32 (n : Nat) : List Nat :=
  [n % 256, n / 256 % 256, n / 65536 % 256, n / 16777216 % 256]

/-- Little-endian 8-byte encoding of an unsigned 64-bit field (`struct "<Q"`). -/
def le64 (n : Nat) : List Nat :=
  [n % 256, n / 256 % 256, n / 65536 % 256, n / 16777216 % 256,
   n / 4294967296 % 256, n / 1099511627776 % 256,
   n / 281474976710656 % 256, n / 72057594037927936 % 256]

/-- Little-endian decode of a byte slice (`struct.unpack_from`). -/
def leDecode (bs : List Nat) : Nat := bs.foldr (fun b acc => b + 256 * acc) 0

/-- Header layout `HEADER_STRUCT = struct.Struct("<8sIQ")`: magic, key_size, record_count. -/
def packHeader (key_size record_count : Nat) : List Nat :=
  MAGIC ++ le32 key_size ++ le64 record_count

/-- Size of the header, `HEADER_STRUCT.size` = 8 + 4 + 8. -/
def HEADER_SIZE : Nat := 20

/-- Record tail layout `OFFSET_STRUCT = struct.Struct("<QI")`: offset, length. -/
def packOffsetLen (offset length : Nat) : List Nat := le64 offset ++ le32 length

/-- Size of a record tail, `OFFSET_STRUCT.size` = 8 + 4. -/
def OFFSET_SIZE : Nat := 12

/-- A Python object used as a key: either a byte sequence
(`bytes`/`bytearray`/`memoryview`, carrying its byte content) or any
other object (fails the `isinstance` byte-sequence check). -/
inductive PyKey where
  | bytes (data : List Nat)
  | nonBytes
deriving DecidableEq

/-- A Python object used as a value: text (`str`, carrying its character
codes) or a raw byte sequence. -/
inductive PyValue where
  | str (codes : List Nat)
  | bytes (data : List Nat)
deriving DecidableEq

/-- Result of `bytes(key)` when `key` is a byte sequence, `none` otherwise. -/
def keyBytes : PyKey → Option (List Nat)
  | .bytes b => some b
  | .nonBytes => none

/-- The raw byte content of a byte-sequence key (junk `[]` for non-bytes,
only ever used after validation). -/
def rawKey (k : PyKey) : List Nat := (keyBytes k).getD []

/-- Python `s.encode("ascii")`: identity on the character codes when all are
below 128, raises (`none`) otherwise. -/
def encodeAscii (codes : List Nat) : Option (List Nat) :=
  if codes.all (fun c => c < 128) then some codes else none

/-- Python `b.decode("ascii")`: succeeds iff every byte is below 128, giving text
with the same character codes. -/
def decodeAscii (bs : List Nat) : Option (List Nat) :=
  if bs.all (fun b => b < 128) then some bs else none

/-- The value-serialization step of the build loop:
`seq.encode("ascii")` for text, `bytes(seq)` for byte sequences. -/
def seqToBytes : PyValue → Option (List Nat)
  | .str cs => encodeAscii cs
  | .bytes d => some d

/-- The serialized bytes of a value on the happy path (`[]` as junk when
encoding would raise; theorems hypothesise encodability). -/
def valBytes (v : PyValue) : List Nat := (seqToBytes v).getD []

/-- One I/O action performed by `build_sequence_store`: opening (and
truncating) one of the two output files, or one `write` call with its
payload. -/
inductive TraceEvent where
  | openData
  | openIndex
  | writeData (payload : List Nat)
  | writeIndex (payload : List Nat)
deriving DecidableEq

/-- An exception raised by `build_sequence_store`. Both `ValueError`
messages interpolate the store's basename. -/
inductive BuildError where
  | keysMustBeBytes (basename : String)
  | inconsistentKeySize (basename : String)
  | unicodeEncodeError
deriving DecidableEq

/-- The key-validation loop: for each entry in order, raise if the key is
not a byte sequence, then raise if its length differs from `key_size`. -/
def validateKeys (basename : String) (key_size : Nat) :
    List (PyKey × PyValue) → Option BuildError
  | [] => none
  | (k, _) :: rest =>
    match keyBytes k with
    | none => some (.keysMustBeBytes basename)
    | some kb =>
      if kb.length = key_size then validateKeys basename key_size rest
      else some (.inconsistentKeySize basename)

/-- The sort comparator: Python's stable `items.sort(key=lambda kv:
bytes(kv[0]))`, i.e. `a ≤ b` iff not `bytes(b[0]) < bytes(a[0])`. -/
def entryLe (a b : PyKey × PyValue) : Bool := ! bytesLt (rawKey b.1) (rawKey a.1)

/-- Insert an entry into an already key-sorted list: skip every entry with
a strictly smaller key, then place it before the first entry whose key is
not strictly smaller — i.e. after all equal keys, so the sort below is
stable, as Python's `list.sort` is. -/
def insertEntry (a : PyKey × PyValue) :
    List (PyKey × PyValue) → List (PyKey × PyValue)
  | [] => [a]
  | b :: bs =>
    if bytesLt (rawKey b.1) (rawKey a.1) then b :: insertEntry a bs
    else a :: b :: bs

/-- Python `items.sort(key=lambda kv: bytes(kv[0]))`: a stable sort by raw key
bytes, modelled as stable insertion sort. -/
def sortEntries : List (PyKey × PyValue) → List (PyKey × PyValue)
  | [] => []
  | a :: rest => insertEntry a (sortEntries rest)

/-- The write loop body: for each sorted entry, serialize the value (which
may raise mid-loop), write the value bytes to the data file, then the key
and the packed offset/length record to the index file. Returns the events
performed and the error, if one was raised. -/
def writeLoop (offset : Nat) : List (PyKey × PyValue) → List TraceEvent × Option BuildError
  | [] => ([], none)
  | (k, v) :: rest =>
    match seqToBytes v with
    | none => ([], some .unicodeEncodeError)
    | some sb =>
      let tail := writeLoop (offset + sb.length) rest
      (.writeData sb :: .writeIndex (rawKey k) ::
         .writeIndex (packOffsetLen offset sb.length) :: tail.1,
       tail.2)

/-- Builder `build_sequence_store(index_folder, basename, seq_dict)`: empty input
returns at once with no I/O; otherwise validate every key against the
first key's length, sort by raw key bytes, open the data file then the
index file, write the header, and run the write loop. The result is the
ordered I/O trace plus the raised error, if any. -/
def build_sequence_store (basename : String) (entries : List (PyKey × PyValue)) :
    List TraceEvent × Option BuildError :=
  match entries with
  | [] => ([], none)
  | (k0, _) :: _ =>
    match keyBytes k0 with
    | none => ([], some (.keysMustBeBytes basename))
    | some kb0 =>
      match validateKeys basename kb0.length entries with
      | some e => ([], some e)
      | none =>
        let sorted := sortEntries entries
        let loop := writeLoop 0 sorted
        (.openData :: .openIndex ::
           .writeIndex (packHeader kb0.length entries.length) :: loop.1,
         loop.2)

/-- The bytes of the index file: concatenation of all index-write payloads
in trace order. -/
def indexFileBytes : List TraceEvent → List Nat
  | [] => []
  | .writeIndex p :: rest => p ++ indexFileBytes rest
  | _ :: rest => indexFileBytes rest

/-- The bytes of the data file: concatenation of all data-write payloads
in trace order. -/
def dataFileBytes : List TraceEvent → List Nat
  | [] => []
  | .writeData p :: rest => p ++ dataFileBytes rest
  | _ :: rest => dataFileBytes rest

/-- The pair of files `(index, data)` produced by a build (content of
whatever writes happened, even if the build raised mid-loop). -/
def builtFiles (basename : String) (entries : List (PyKey × PyValue)) :
    List Nat × List Nat :=
  (indexFileBytes (build_sequence_store basename entries).1,
   dataFileBytes (build_sequence_store basename entries).1)

/-- An exception raised by `SequenceMmapStore.__init__`. -/
inductive InitError where
  | structError
  | badMagic (index_path : String)
deriving DecidableEq

/-- The reader: the two memory-mapped files plus the header fields parsed
at construction. -/
structure SequenceMmapStore where
  index_mm : List Nat
  data_mm : List Nat
  key_size : Nat
  count : Nat
deriving DecidableEq

/-- Constructor `SequenceMmapStore.__init__`: unpack the header (raising `struct.error`
if the index file is shorter than the header), check the magic tag
(raising `ValueError` naming the index path on mismatch), and record
`key_size` and `count` from the header. -/
def initStore (index_path : String) (index_mm data_mm : List Nat) :
    Except InitError SequenceMmapStore :=
  if index_mm.length < HEADER_SIZE then .error .structError
  else if index_mm.take 8 = MAGIC then
    .ok { index_mm := index_mm, data_mm := data_mm,
          key_size := leDecode ((index_mm.drop 8).take 4),
          count := leDecode ((index_mm.drop 12).take 8) }
  else .error (.badMagic index_path)

/-- Derived `self._record_size = self._key_size + OFFSET_STRUCT.size`. -/
def record_size (st : SequenceMmapStore) : Nat := st.key_size + OFFSET_SIZE

/-- Method `_key_at`: slice the raw key bytes of record `idx` out of the mapped
index file. -/
def key_at (st : SequenceMmapStore) (idx : Nat) : List Nat :=
  (st.index_mm.drop (HEADER_SIZE + idx * record_size st)).take st.key_size

/-- Method `_offset_and_length`: unpack the `<QI` pair of record `idx` from the
mapped index file. -/
def offset_and_length (st : SequenceMmapStore) (idx : Nat) : Nat × Nat :=
  (leDecode ((st.index_mm.drop (HEADER_SIZE + idx * record_size st + st.key_size)).take 8),
   leDecode ((st.index_mm.drop (HEADER_SIZE + idx * record_size st + st.key_size + 8)).take 4))

/-- The binary-search loop of `_find_index`, with Python integer `lo`/`hi`
and floor-division midpoint. The `while lo <= hi` loop strictly shrinks
`hi + 1 - lo` each iteration; that measure is passed as a structural
recursion argument (`fuel`) so the function computes by kernel reduction;
`findLoop` below instantiates it with the measure's initial value, which
every iteration keeps sufficient. -/
def findLoopGo (st : SequenceMmapStore) (key_bytes : List Nat) :
    Nat → Int → Int → Int
  | 0, _, _ => -1
  | fuel + 1, lo, hi =>
    if lo ≤ hi then
      if key_at st (((lo + hi) / 2).toNat) = key_bytes then (lo + hi) / 2
      else if bytesLt (key_at st (((lo + hi) / 2).toNat)) key_bytes then
        findLoopGo st key_bytes fuel ((lo + hi) / 2 + 1) hi
      else findLoopGo st key_bytes fuel lo ((lo + hi) / 2 - 1)
    else -1

/-- The binary-search loop entered at `lo`, `hi`. -/
def findLoop (st : SequenceMmapStore) (key_bytes : List Nat) (lo hi : Int) : Int :=
  findLoopGo st key_bytes (hi + 1 - lo).toNat lo hi

/-- Method `_find_index`: non-byte-sequence keys and keys of the wrong length are
an immediate `-1`; otherwise binary search over `[0, count - 1]`. -/
def find_index (st : SequenceMmapStore) (key : PyKey) : Int :=
  match keyBytes key with
  | none => -1
  | some kb =>
    if kb.length = st.key_size then findLoop st kb 0 ((st.count : Int) - 1)
    else -1

/-- Method `__contains__`: `self._find_index(key) >= 0`. -/
def containsKey (st : SequenceMmapStore) (key : PyKey) : Bool :=
  decide (0 ≤ find_index st key)

/-- Method `__len__`: the stored record count. -/
def lenStore (st : SequenceMmapStore) : Nat := st.count

/-- An exception raised by `get`: the ASCII decode of the value slice
failed. -/
inductive GetError where
  | unicodeDecodeError
deriving DecidableEq

/-- Method `get(key, default)`: on miss return the default; on hit slice
`data_mm[offset : offset + length]` and ASCII-decode it (which raises on
any byte above 127). The returned text is modelled by its character
codes; a Python `None` default is `none`. -/
def getValue (st : SequenceMmapStore) (key : PyKey) (default : Option (List Nat)) :
    Except GetError (Option (List Nat)) :=
  if find_index st key < 0 then .ok default
  else
    match decodeAscii
        ((st.data_mm.drop (offset_and_length st (find_index st key).toNat).1).take
          (offset_and_length st (find_index st key).toNat).2) with
    | some s => .ok (some s)
    | none => .error .unicodeDecodeError

/-- An exception raised by `__getitem__`. -/
inductive ItemError where
  | keyError
  | decodeError
deriving DecidableEq

/-- Method `__getitem__`: `get(key, None)`, raising `KeyError` when that returns
`None`. -/
def getItem (st : SequenceMmapStore) (key : PyKey) : Except ItemError (List Nat) :=
  match getValue st key none with
  | .error _ => .error .decodeError
  | .ok none => .error .keyError
  | .ok (some v) => .ok v

/-- Open a built store and run one `get` with a `None` default: `none` if
construction raised. -/
def openAndGet (basename : String) (entries : List (PyKey × PyValue)) (key : PyKey) :
    Option (Except GetError (Option (List Nat))) :=
  match initStore basename (builtFiles basename entries).1 (builtFiles basename entries).2 with
  | .ok st => some (getValue st key none)
  | .error _ => none

/-- The four OS resources `__init__` acquires. -/
inductive Resource where
  | indexFd
  | dataFd
  | indexMm
  | dataMm
deriving DecidableEq

/-- Resource trace of `__init__`: which resources it acquires, which it
explicitly releases before returning or raising, and the raised error if
any. The source acquires the two file handles and the two mappings in
order and contains no `close`/`munmap` call on any path, so the released
list is empty whether construction succeeds or raises. -/
def initTrace (index_path : String) (index_mm data_mm : List Nat) :
    List Resource × List Resource × Option InitError :=
  ([.indexFd, .dataFd, .indexMm, .dataMm], [],
   match initStore index_path index_mm data_mm with
   | .ok _ => none
   | .error e => some e)

/-- Which of the four release calls inside `close` raise when attempted. -/
structure CloseFailures where
  index_mm_fails : Bool
  index_fd_fails : Bool
  data_mm_fails : Bool
  data_fd_fails : Bool
deriving DecidableEq

/-- Method `close()` under a given failure pattern: the first `try/finally`
attempts `index_mm.close()` then always `index_fd.close()`; if either
raised, the exception propagates out of `close` and the second
`try/finally` (data mapping then data handle) is never reached. Returns
the list of release calls attempted, in order, and whether `close`
raised. -/
def closeTrace (f : CloseFailures) : List Resource × Bool :=
  if f.index_mm_fails || f.index_fd_fails then
    ([.indexMm, .indexFd], true)
  else
    ([.indexMm, .indexFd, .dataMm, .dataFd],
     f.data_mm_fails || f.data_fd_fails)

/-- Formalisation of claim C8's temporal property over a build trace:
no data-file write occurs after any index-file write, i.e. every index
byte is written only after all data bytes. (Spec-side predicate, used to
compare the spec's ordering statement with the trace the code produces.) -/
def indexAfterAllData : List TraceEvent → Bool
  | [] => true
  | .writeIndex _ :: rest =>
    rest.all (fun e => match e with | .writeData _ => false | _ => true) &&
      indexAfterAllData rest
  | _ :: rest => indexAfterAllData rest

/-- The interleaving the build loop actually produces: groups of one data
write followed by the two index writes of that entry's record. -/
def dataBeforeItsRecord : List TraceEvent → Bool
  | [] => true
  | .writeData _ :: .writeIndex _ :: .writeIndex _ :: rest => dataBeforeItsRecord rest
  | _ => false

/-- The record array of the index file: for each entry, its raw key bytes
followed by the packed offset/length pair, with offsets accumulating the
preceding value lengths. -/
def serializeIndex (offset : Nat) : List (PyKey × PyValue) → List Nat
  | [] => []
  | (k, v) :: rest =>
    rawKey k ++ packOffsetLen offset (valBytes v).length ++
      serializeIndex (offset + (valBytes v).length) rest

/-- The data file: the concatenated value bytes in list order. -/
def serializeData : List (PyKey × PyValue) → List Nat
  | [] => []
  | (_, v) :: rest => valBytes v ++ serializeData rest

/-- The offset of entry `i`: the combined byte length of the first `i`
values. -/
def prefLen : List (PyKey × PyValue) → Nat → Nat
  | _, 0 => 0
  | [], _ + 1 => 0
  | (_, v) :: rest, i + 1 => (valBytes v).length + prefLen rest i

/-- The entry at position `i` (an arbitrary junk entry out of range). -/
def entryAt (l : List (PyKey × PyValue)) (i : Nat) : PyKey × PyValue :=
  l.getD i (PyKey.nonBytes, PyValue.bytes [])

/-- The reader state obtained by opening the two files a valid build
produced. -/
def builtStore (basename : String) (ks : Nat) (entries : List (PyKey × PyValue)) :
    SequenceMmapStore :=
  { index_mm := (builtFiles basename entries).1,
    data_mm := (builtFiles basename entries).2,
    key_size := ks, count := entries.length }

/-- Concrete input used to evaluate the claim theorems: two 2-byte keys,
given unsorted, one text value and one raw byte-sequence value covering
byte values 1 and 127. -/
def exampleEntries : List (PyKey × PyValue) :=
  [(PyKey.bytes [90, 90], PyValue.str [104, 105]),
   (PyKey.bytes [65, 66], PyValue.bytes [1, 127])]

/-! ### Basic facts about the encodings -/

theorem le32_length (n : Nat) : (le32 n).length = 4 := rfl

theorem le64_length (n : Nat) : (le64 n).length = 8 := rfl

theorem MAGIC_length : MAGIC.length = 8 := rfl

theorem packHeader_length (ks n : Nat) : (packHeader ks n).length = HEADER_SIZE := by
  simp [packHeader, HEADER_SIZE, MAGIC, le32, le64]

theorem packOffsetLen_length (o l : Nat) : (packOffsetLen o l).length = OFFSET_SIZE := by
  simp [packOffsetLen, OFFSET_SIZE, le32, le64]

theorem leDecode_le32 (n : Nat) (h : n < 2 ^ 32) : leDecode (le32 n) = n := by
  simp only [le32, leDecode, List.foldr]
  omega

theorem leDecode_le64 (n : Nat) (h : n < 2 ^ 64) : leDecode (le64 n) = n := by
  simp only [le64, leDecode, List.foldr]
  omega

/-! ### The strict byte order -/

theorem bytesLt_irrefl (a : List Nat) : bytesLt a a = false := by
  induction a with
  | nil => rfl
  | cons x xs ih => simp [bytesLt, ih]

theorem bytesLt_trans {a b c : List Nat} (hab : bytesLt a b = true)
    (hbc : bytesLt b c = true) : bytesLt a c = true := by
  induction a generalizing b c with
  | nil =>
    cases b with
    | nil => simp [bytesLt] at hab
    | cons y ys =>
      cases c with
      | nil => simp [bytesLt] at hbc
      | cons z zs => simp [bytesLt]
  | cons x xs ih =>
    cases b with
    | nil => simp [bytesLt] at hab
    | cons y ys =>
      cases c with
      | nil => simp [bytesLt] at hbc
      | cons z zs =>
        simp only [bytesLt] at hab hbc ⊢
        rcases Nat.lt_trichotomy x y with hxy | hxy | hxy
        · rcases Nat.lt_trichotomy y z with hyz | hyz | hyz
          · rw [if_pos (by omega : x < z)]
          · rw [if_pos (by omega : x < z)]
          · rw [if_neg (by omega : ¬ y < z), if_pos hyz] at hbc
            cases hbc
        · subst hxy
          rcases Nat.lt_trichotomy x z with hxz | hxz | hxz
          · rw [if_pos hxz]
          · subst hxz
            rw [if_neg (by omega : ¬ x < x), if_neg (by omega : ¬ x < x)] at hab
            rw [if_neg (by omega : ¬ x < x), if_neg (by omega : ¬ x < x)] at hbc
            rw [if_neg (by omega : ¬ x < x), if_neg (by omega : ¬ x < x)]
            exact ih hab hbc
          · rw [if_neg (by omega : ¬ x < z), if_pos hxz] at hbc
            cases hbc
        · rw [if_neg (by omega : ¬ x < y), if_pos hxy] at hab
          cases hab

theorem bytesLt_trichotomy (a b : List Nat) :
    a = b ∨ bytesLt a b = true ∨ bytesLt b a = true := by
  induction a generalizing b with
  | nil =>
    cases b with
    | nil => exact Or.inl rfl
    | cons y ys => exact Or.inr (Or.inl (by simp [bytesLt]))
  | cons x xs ih =>
    cases b with
    | nil => exact Or.inr (Or.inr (by simp [bytesLt]))
    | cons y ys =>
      by_cases hxy : x < y
      · exact Or.inr (Or.inl (by simp [bytesLt, hxy]))
      · by_cases hyx : y < x
        · exact Or.inr (Or.inr (by simp [bytesLt, hyx]))
        · have hx : x = y := by omega
          subst hx
          rcases ih ys with heq | hlt | hgt
          · exact Or.inl (by rw [heq])
          · exact Or.inr (Or.inl (by simp [bytesLt, hlt]))
          · exact Or.inr (Or.inr (by simp [bytesLt, hgt]))

theorem bytesLt_asymm {a b : List Nat} (h : bytesLt a b = true) :
    bytesLt b a = false := by
  by_contra hc
  have hba : bytesLt b a = true := by
    cases hob : bytesLt b a with
    | false => exact absurd hob hc
    | true => rfl
  have := bytesLt_trans h hba
  rw [bytesLt_irrefl] at this
  cases this

/-! ### The stable sort -/

theorem bytesLt_false_trans {a b c : List Nat} (hab : bytesLt a b = false)
    (hbc : bytesLt b c = false) : bytesLt a c = false := by
  cases hac : bytesLt a c with
  | false => rfl
  | true =>
    rcases bytesLt_trichotomy a b with heq | hlt | hgt
    · subst heq
      rw [hac] at hbc
      cases hbc
    · rw [hlt] at hab
      cases hab
    · have h2 := bytesLt_trans hgt hac
      rw [h2] at hbc
      cases hbc

theorem perm_insertEntry (a : PyKey × PyValue) (l : List (PyKey × PyValue)) :
    (insertEntry a l).Perm (a :: l) := by
  induction l with
  | nil => exact List.Perm.refl _
  | cons b bs ih =>
    by_cases h : bytesLt (rawKey b.1) (rawKey a.1) = true
    · have h1 : insertEntry a (b :: bs) = b :: insertEntry a bs := by
        simp [insertEntry, h]
      rw [h1]
      exact (List.Perm.cons b ih).trans (List.Perm.swap a b bs)
    · have h1 : insertEntry a (b :: bs) = a :: b :: bs := by
        simp [insertEntry, h]
      rw [h1]

theorem perm_sortEntries (l : List (PyKey × PyValue)) : (sortEntries l).Perm l := by
  induction l with
  | nil => exact List.Perm.refl _
  | cons a rest ih =>
    exact ((perm_insertEntry a (sortEntries rest)).trans (List.Perm.cons a ih))

theorem sorted_insertEntry (a : PyKey × PyValue) (l : List (PyKey × PyValue))
    (hl : l.Pairwise (fun x y => entryLe x y = true)) :
    (insertEntry a l).Pairwise (fun x y => entryLe x y = true) := by
  induction l with
  | nil => simp [insertEntry]
  | cons b bs ih =>
    rcases List.pairwise_cons.mp hl with ⟨hb, hbs⟩
    by_cases h : bytesLt (rawKey b.1) (rawKey a.1) = true
    · have h1 : insertEntry a (b :: bs) = b :: insertEntry a bs := by
        simp [insertEntry, h]
      rw [h1]
      refine List.pairwise_cons.mpr ⟨?_, ih hbs⟩
      intro c hc
      have hc2 := (perm_insertEntry a bs).mem_iff.mp hc
      rcases List.mem_cons.mp hc2 with hca | hcb
      · subst hca
        simp [entryLe, bytesLt_asymm h]
      · exact hb c hcb
    · have hba : bytesLt (rawKey b.1) (rawKey a.1) = false := by
        simpa using h
      have h1 : insertEntry a (b :: bs) = a :: b :: bs := by
        simp [insertEntry, hba]
      rw [h1]
      refine List.pairwise_cons.mpr ⟨?_, hl⟩
      intro c hc
      rcases List.mem_cons.mp hc with hcb | hcbs
      · subst hcb
        simp [entryLe, hba]
      · have hcbf : bytesLt (rawKey c.1) (rawKey b.1) = false := by
          simpa [entryLe] using hb c hcbs
        simp only [entryLe, Bool.not_eq_true']
        exact bytesLt_false_trans hcbf hba

theorem sorted_sortEntries (l : List (PyKey × PyValue)) :
    (sortEntries l).Pairwise (fun x y => entryLe x y = true) := by
  induction l with
  | nil => simp [sortEntries]
  | cons a rest ih => exact sorted_insertEntry a (sortEntries rest) ih

/-! ### The on-disk bytes produced by a successful build -/

theorem validateKeys_eq_none_iff (basename : String) (ks : Nat)
    (l : List (PyKey × PyValue)) :
    validateKeys basename ks l = none ↔
      ∀ e ∈ l, (keyBytes e.1).isSome = true ∧ (rawKey e.1).length = ks := by
  induction l with
  | nil => simp [validateKeys]
  | cons e rest ih =>
    obtain ⟨k, v⟩ := e
    cases hk : keyBytes k with
    | none => simp [validateKeys, hk]
    | some kb =>
      by_cases hlen : kb.length = ks
      · simp [validateKeys, hk, hlen, ih, rawKey]
      · simp [validateKeys, hk, hlen, rawKey]

theorem validateKeys_some_shape (basename : String) (ks : Nat)
    (l : List (PyKey × PyValue)) (r : BuildError)
    (h : validateKeys basename ks l = some r) :
    r = .keysMustBeBytes basename ∨ r = .inconsistentKeySize basename := by
  induction l with
  | nil => simp [validateKeys] at h
  | cons e rest ih =>
    obtain ⟨k, v⟩ := e
    cases hk : keyBytes k with
    | none =>
      simp only [validateKeys, hk] at h
      exact Or.inl (by cases h; rfl)
    | some kb =>
      by_cases hlen : kb.length = ks
      · simp only [validateKeys, hk, hlen, if_pos] at h
        exact ih h
      · simp only [validateKeys, hk, hlen, if_neg, not_false_iff] at h
        exact Or.inr (by cases h; rfl)

theorem writeLoop_no_error (off : Nat) (l : List (PyKey × PyValue))
    (hvals : ∀ e ∈ l, (seqToBytes e.2).isSome = true) :
    (writeLoop off l).2 = none := by
  induction l generalizing off with
  | nil => rfl
  | cons e rest ih =>
    obtain ⟨k, v⟩ := e
    have hv : (seqToBytes v).isSome = true := hvals (k, v) (List.mem_cons_self _ _)
    cases hs : seqToBytes v with
    | none => rw [hs] at hv; cases hv
    | some sb =>
      simp only [writeLoop, hs]
      exact ih (off + sb.length) (fun e he => hvals e (List.mem_cons_of_mem _ he))

theorem writeLoop_indexFile (off : Nat) (l : List (PyKey × PyValue))
    (hvals : ∀ e ∈ l, (seqToBytes e.2).isSome = true) :
    indexFileBytes (writeLoop off l).1 = serializeIndex off l := by
  induction l generalizing off with
  | nil => rfl
  | cons e rest ih =>
    obtain ⟨k, v⟩ := e
    have hv : (seqToBytes v).isSome = true := hvals (k, v) (List.mem_cons_self _ _)
    cases hs : seqToBytes v with
    | none => rw [hs] at hv; cases hv
    | some sb =>
      have hvb : valBytes v = sb := by simp [valBytes, hs]
      simp only [writeLoop, hs, serializeIndex, indexFileBytes, hvb]
      rw [ih (off + sb.length) (fun e he => hvals e (List.mem_cons_of_mem _ he))]
      simp [List.append_assoc]

theorem writeLoop_dataFile (off : Nat) (l : List (PyKey × PyValue))
    (hvals : ∀ e ∈ l, (seqToBytes e.2).isSome = true) :
    dataFileBytes (writeLoop off l).1 = serializeData l := by
  induction l generalizing off with
  | nil => rfl
  | cons e rest ih =>
    obtain ⟨k, v⟩ := e
    have hv : (seqToBytes v).isSome = true := hvals (k, v) (List.mem_cons_self _ _)
    cases hs : seqToBytes v with
    | none => rw [hs] at hv; cases hv
    | some sb =>
      have hvb : valBytes v = sb := by simp [valBytes, hs]
      simp only [writeLoop, hs, serializeData, dataFileBytes, hvb]
      rw [ih (off + sb.length) (fun e he => hvals e (List.mem_cons_of_mem _ he))]

theorem writeLoop_interleaving (off : Nat) (l : List (PyKey × PyValue))
    (hvals : ∀ e ∈ l, (seqToBytes e.2).isSome = true) :
    dataBeforeItsRecord (writeLoop off l).1 = true := by
  induction l generalizing off with
  | nil => rfl
  | cons e rest ih =>
    obtain ⟨k, v⟩ := e
    have hv : (seqToBytes v).isSome = true := hvals (k, v) (List.mem_cons_self _ _)
    cases hs : seqToBytes v with
    | none => rw [hs] at hv; cases hv
    | some sb =>
      simp only [writeLoop, hs, dataBeforeItsRecord]
      exact ih (off + sb.length) (fun e he => hvals e (List.mem_cons_of_mem _ he))

theorem build_sequence_store_eq (basename : String) (entries : List (PyKey × PyValue))
    (ks : Nat) (hne : entries ≠ [])
    (hkeys : ∀ e ∈ entries, (keyBytes e.1).isSome = true ∧ (rawKey e.1).length = ks)
    (hvals : ∀ e ∈ entries, (seqToBytes e.2).isSome = true) :
    build_sequence_store basename entries =
      (.openData :: .openIndex :: .writeIndex (packHeader ks entries.length) ::
         (writeLoop 0 (sortEntries entries)).1, none) := by
  cases entries with
  | nil => exact absurd rfl hne
  | cons e rest =>
    obtain ⟨k0, v0⟩ := e
    have hk0 := hkeys (k0, v0) (List.mem_cons_self _ _)
    cases hkb : keyBytes k0 with
    | none => rw [hkb] at hk0; cases hk0.1
    | some kb0 =>
      have hlen0 : kb0.length = ks := by
        have := hk0.2
        rw [rawKey, hkb] at this
        exact this
      have hval : validateKeys basename kb0.length ((k0, v0) :: rest) = none := by
        rw [validateKeys_eq_none_iff, hlen0]
        exact hkeys
      have hloop : (writeLoop 0 (sortEntries ((k0, v0) :: rest))).2 = none :=
        writeLoop_no_error 0 _ (fun e he =>
          hvals e ((perm_sortEntries ((k0, v0) :: rest)).mem_iff.mp he))
      rw [hlen0] at hval
      simp only [build_sequence_store, hkb, hlen0, hval, hloop]

theorem builtFiles_eq (basename : String) (entries : List (PyKey × PyValue))
    (ks : Nat) (hne : entries ≠ [])
    (hkeys : ∀ e ∈ entries, (keyBytes e.1).isSome = true ∧ (rawKey e.1).length = ks)
    (hvals : ∀ e ∈ entries, (seqToBytes e.2).isSome = true) :
    builtFiles basename entries =
      (packHeader ks entries.length ++ serializeIndex 0 (sortEntries entries),
       serializeData (sortEntries entries)) := by
  have hvs : ∀ e ∈ sortEntries entries, (seqToBytes e.2).isSome = true :=
    fun e he => hvals e ((perm_sortEntries entries).mem_iff.mp he)
  rw [builtFiles, build_sequence_store_eq basename entries ks hne hkeys hvals]
  simp only [indexFileBytes, dataFileBytes]
  rw [writeLoop_indexFile 0 _ hvs, writeLoop_dataFile 0 _ hvs]

/-! ### Slicing the serialized files -/

theorem header_take8 (ks n : Nat) (tail : List Nat) :
    (packHeader ks n ++ tail).take 8 = MAGIC := by
  have h : packHeader ks n ++ tail = MAGIC ++ (le32 ks ++ (le64 n ++ tail)) := by
    simp [packHeader, List.append_assoc]
  rw [h]
  exact List.take_left MAGIC _

theorem header_key_slice (ks n : Nat) (tail : List Nat) :
    ((packHeader ks n ++ tail).drop 8).take 4 = le32 ks := by
  have h : packHeader ks n ++ tail = MAGIC ++ (le32 ks ++ (le64 n ++ tail)) := by
    simp [packHeader, List.append_assoc]
  rw [h]
  have h2 : (MAGIC ++ (le32 ks ++ (le64 n ++ tail))).drop 8 = le32 ks ++ (le64 n ++ tail) :=
    List.drop_left MAGIC _
  rw [h2]
  exact List.take_left (le32 ks) _

theorem header_count_slice (ks n : Nat) (tail : List Nat) :
    ((packHeader ks n ++ tail).drop 12).take 8 = le64 n := by
  have h : packHeader ks n ++ tail = (MAGIC ++ le32 ks) ++ (le64 n ++ tail) := by
    simp [packHeader, List.append_assoc]
  rw [h]
  have h2 : ((MAGIC ++ le32 ks) ++ (le64 n ++ tail)).drop 12 = le64 n ++ tail :=
    List.drop_left (MAGIC ++ le32 ks) _
  rw [h2]
  exact List.take_left (le64 n) _

theorem header_drop20 (ks n : Nat) (tail : List Nat) :
    (packHeader ks n ++ tail).drop 20 = tail := by
  have h : (packHeader ks n).length = 20 := packHeader_length ks n
  have := List.drop_left (packHeader ks n) tail
  rw [h] at this
  exact this

theorem serializeIndex_key_slice (ks : Nat) (l : List (PyKey × PyValue)) (off i : Nat)
    (hkeys : ∀ e ∈ l, (rawKey e.1).length = ks) (hi : i < l.length) :
    ((serializeIndex off l).drop (i * (ks + 12))).take ks = rawKey (entryAt l i).1 := by
  induction l generalizing off i with
  | nil => cases hi
  | cons e rest ih =>
    obtain ⟨k, v⟩ := e
    have hk : (rawKey k).length = ks := hkeys (k, v) (List.mem_cons_self _ _)
    cases i with
    | zero =>
      simp only [serializeIndex, Nat.zero_mul, List.drop_zero, entryAt, List.getD_cons_zero]
      rw [List.append_assoc, ← hk]
      exact List.take_left (rawKey k) _
    | succ j =>
      have hpre : (rawKey k ++ packOffsetLen off (valBytes v).length).length = ks + 12 := by
        rw [List.length_append, hk, packOffsetLen_length]
        rfl
      have hArr : serializeIndex off ((k, v) :: rest) =
          (rawKey k ++ packOffsetLen off (valBytes v).length) ++
            serializeIndex (off + (valBytes v).length) rest := by
        simp [serializeIndex, List.append_assoc]
      have hd := @List.drop_append Nat (rawKey k ++ packOffsetLen off (valBytes v).length)
        (serializeIndex (off + (valBytes v).length) rest) (j * (ks + 12))
      rw [hpre] at hd
      rw [hArr, show (j + 1) * (ks + 12) = (ks + 12) + j * (ks + 12) by ring, hd]
      have hj : j < rest.length := by simpa using Nat.lt_of_succ_lt_succ (by simpa using hi)
      rw [ih (off + (valBytes v).length) j
        (fun e he => hkeys e (List.mem_cons_of_mem _ he)) hj]
      simp [entryAt, List.getD_cons_succ]

theorem serializeIndex_off_slice (ks : Nat) (l : List (PyKey × PyValue)) (off i : Nat)
    (hkeys : ∀ e ∈ l, (rawKey e.1).length = ks) (hi : i < l.length) :
    ((serializeIndex off l).drop (i * (ks + 12) + ks)).take 8 =
      le64 (off + prefLen l i) := by
  induction l generalizing off i with
  | nil => cases hi
  | cons e rest ih =>
    obtain ⟨k, v⟩ := e
    have hk : (rawKey k).length = ks := hkeys (k, v) (List.mem_cons_self _ _)
    cases i with
    | zero =>
      have hArr : serializeIndex off ((k, v) :: rest) =
          rawKey k ++ (le64 off ++ (le32 (valBytes v).length ++
            serializeIndex (off + (valBytes v).length) rest)) := by
        simp [serializeIndex, packOffsetLen, List.append_assoc]
      rw [hArr, Nat.zero_mul, Nat.zero_add, ← hk, List.drop_left]
      have : prefLen ((k, v) :: rest) 0 = 0 := rfl
      rw [this, Nat.add_zero]
      exact List.take_left (le64 off) _
    | succ j =>
      have hpre : (rawKey k ++ packOffsetLen off (valBytes v).length).length = ks + 12 := by
        rw [List.length_append, hk, packOffsetLen_length]
        rfl
      have hArr : serializeIndex off ((k, v) :: rest) =
          (rawKey k ++ packOffsetLen off (valBytes v).length) ++
            serializeIndex (off + (valBytes v).length) rest := by
        simp [serializeIndex, List.append_assoc]
      have hd := @List.drop_append Nat (rawKey k ++ packOffsetLen off (valBytes v).length)
        (serializeIndex (off + (valBytes v).length) rest) (j * (ks + 12) + ks)
      rw [hpre] at hd
      rw [hArr, show (j + 1) * (ks + 12) + ks = (ks + 12) + (j * (ks + 12) + ks) by ring, hd]
      have hj : j < rest.length := by simpa using Nat.lt_of_succ_lt_succ (by simpa using hi)
      rw [ih (off + (valBytes v).length) j
        (fun e he => hkeys e (List.mem_cons_of_mem _ he)) hj]
      have hpl : prefLen ((k, v) :: rest) (j + 1) = (valBytes v).length + prefLen rest j := rfl
      rw [hpl]
      congr 1
      omega

theorem serializeIndex_len_slice (ks : Nat) (l : List (PyKey × PyValue)) (off i : Nat)
    (hkeys : ∀ e ∈ l, (rawKey e.1).length = ks) (hi : i < l.length) :
    ((serializeIndex off l).drop (i * (ks + 12) + ks + 8)).take 4 =
      le32 (valBytes (entryAt l i).2).length := by
  induction l generalizing off i with
  | nil => cases hi
  | cons e rest ih =>
    obtain ⟨k, v⟩ := e
    have hk : (rawKey k).length = ks := hkeys (k, v) (List.mem_cons_self _ _)
    cases i with
    | zero =>
      have hpre : (rawKey k ++ le64 off).length = ks + 8 := by
        rw [List.length_append, hk]
        rfl
      have hArr : serializeIndex off ((k, v) :: rest) =
          (rawKey k ++ le64 off) ++ (le32 (valBytes v).length ++
            serializeIndex (off + (valBytes v).length) rest) := by
        simp [serializeIndex, packOffsetLen, List.append_assoc]
      rw [hArr, Nat.zero_mul, Nat.zero_add, ← hpre, List.drop_left]
      simp only [entryAt, List.getD_cons_zero]
      exact List.take_left (le32 (valBytes v).length) _
    | succ j =>
      have hpre : (rawKey k ++ packOffsetLen off (valBytes v).length).length = ks + 12 := by
        rw [List.length_append, hk, packOffsetLen_length]
        rfl
      have hArr : serializeIndex off ((k, v) :: rest) =
          (rawKey k ++ packOffsetLen off (valBytes v).length) ++
            serializeIndex (off + (valBytes v).length) rest := by
        simp [serializeIndex, List.append_assoc]
      have hd := @List.drop_append Nat (rawKey k ++ packOffsetLen off (valBytes v).length)
        (serializeIndex (off + (valBytes v).length) rest) (j * (ks + 12) + ks + 8)
      rw [hpre] at hd
      rw [hArr,
        show (j + 1) * (ks + 12) + ks + 8 = (ks + 12) + (j * (ks + 12) + ks + 8) by ring, hd]
      have hj : j < rest.length := by simpa using Nat.lt_of_succ_lt_succ (by simpa using hi)
      rw [ih (off + (valBytes v).length) j
        (fun e he => hkeys e (List.mem_cons_of_mem _ he)) hj]
      simp [entryAt, List.getD_cons_succ]

theorem serializeData_slice (l : List (PyKey × PyValue)) (i : Nat) (hi : i < l.length) :
    ((serializeData l).drop (prefLen l i)).take (valBytes (entryAt l i).2).length =
      valBytes (entryAt l i).2 := by
  induction l generalizing i with
  | nil => cases hi
  | cons e rest ih =>
    obtain ⟨k, v⟩ := e
    cases i with
    | zero =>
      simp only [serializeData, prefLen, List.drop_zero, entryAt, List.getD_cons_zero]
      exact List.take_left (valBytes v) _
    | succ j =>
      have hstep : prefLen ((k, v) :: rest) (j + 1) =
          (valBytes v).length + prefLen rest j := rfl
      simp only [serializeData, hstep, entryAt, List.getD_cons_succ]
      rw [List.drop_append]
      have hj : j < rest.length := by simpa using Nat.lt_of_succ_lt_succ (by simpa using hi)
      exact ih j hj

theorem prefLen_add_le (l : List (PyKey × PyValue)) (i : Nat) (hi : i < l.length) :
    prefLen l i + (valBytes (entryAt l i).2).length ≤
      (l.map fun e => (valBytes e.2).length).sum := by
  induction l generalizing i with
  | nil => cases hi
  | cons e rest ih =>
    obtain ⟨k, v⟩ := e
    cases i with
    | zero =>
      simp only [prefLen, entryAt, List.getD_cons_zero, List.map_cons, List.sum_cons]
      omega
    | succ j =>
      have hj : j < rest.length := by simpa using Nat.lt_of_succ_lt_succ (by simpa using hi)
      have hrec := ih j hj
      simp only [entryAt] at hrec
      simp only [prefLen, entryAt, List.getD_cons_succ, List.map_cons, List.sum_cons]
      omega

theorem initStore_built (p basename : String) (entries : List (PyKey × PyValue)) (ks : Nat)
    (hne : entries ≠ [])
    (hkeys : ∀ e ∈ entries, (keyBytes e.1).isSome = true ∧ (rawKey e.1).length = ks)
    (hvals : ∀ e ∈ entries, (seqToBytes e.2).isSome = true)
    (hks : ks < 2 ^ 32) (hcnt : entries.length < 2 ^ 64) :
    initStore p (builtFiles basename entries).1 (builtFiles basename entries).2 =
      Except.ok (builtStore basename ks entries) := by
  have hbf := builtFiles_eq basename entries ks hne hkeys hvals
  have h1 : (builtFiles basename entries).1 =
      packHeader ks entries.length ++ serializeIndex 0 (sortEntries entries) := by
    rw [hbf]
  have h2 : (builtFiles basename entries).2 = serializeData (sortEntries entries) := by
    rw [hbf]
  simp only [builtStore]
  rw [h1, h2]
  have hlen : ¬ ((packHeader ks entries.length ++
      serializeIndex 0 (sortEntries entries)).length < HEADER_SIZE) := by
    rw [List.length_append, packHeader_length]
    simp [HEADER_SIZE]
  have hmag := header_take8 ks entries.length (serializeIndex 0 (sortEntries entries))
  rw [initStore, if_neg hlen, hmag, if_pos rfl, header_key_slice, header_count_slice,
    leDecode_le32 ks hks, leDecode_le64 entries.length hcnt]

theorem builtStore_key_at (basename : String) (entries : List (PyKey × PyValue)) (ks : Nat)
    (hne : entries ≠ [])
    (hkeys : ∀ e ∈ entries, (keyBytes e.1).isSome = true ∧ (rawKey e.1).length = ks)
    (hvals : ∀ e ∈ entries, (seqToBytes e.2).isSome = true)
    (i : Nat) (hi : i < entries.length) :
    key_at (builtStore basename ks entries) i =
      rawKey (entryAt (sortEntries entries) i).1 := by
  have hbf := builtFiles_eq basename entries ks hne hkeys hvals
  have h1 : (builtFiles basename entries).1 =
      packHeader ks entries.length ++ serializeIndex 0 (sortEntries entries) := by
    rw [hbf]
  have hsk : ∀ e ∈ sortEntries entries, (rawKey e.1).length = ks :=
    fun e he => (hkeys e ((perm_sortEntries entries).mem_iff.mp he)).2
  have hsl : (sortEntries entries).length = entries.length :=
    (perm_sortEntries entries).length_eq
  simp only [key_at, builtStore, record_size, OFFSET_SIZE]
  rw [h1]
  have hdr : (packHeader ks entries.length ++ serializeIndex 0 (sortEntries entries)).drop
      (HEADER_SIZE + i * (ks + 12)) =
      (serializeIndex 0 (sortEntries entries)).drop (i * (ks + 12)) := by
    have hd := @List.drop_append Nat (packHeader ks entries.length)
      (serializeIndex 0 (sortEntries entries)) (i * (ks + 12))
    rw [packHeader_length] at hd
    exact hd
  rw [hdr]
  exact serializeIndex_key_slice ks (sortEntries entries) 0 i hsk (by rw [hsl]; exact hi)

theorem builtStore_offset_and_length (basename : String)
    (entries : List (PyKey × PyValue)) (ks : Nat)
    (hne : entries ≠ [])
    (hkeys : ∀ e ∈ entries, (keyBytes e.1).isSome = true ∧ (rawKey e.1).length = ks)
    (hvals : ∀ e ∈ entries, (seqToBytes e.2).isSome = true)
    (hlens : ∀ e ∈ entries, (valBytes e.2).length < 2 ^ 32)
    (htot : (entries.map fun e => (valBytes e.2).length).sum < 2 ^ 64)
    (i : Nat) (hi : i < entries.length) :
    offset_and_length (builtStore basename ks entries) i =
      (prefLen (sortEntries entries) i,
       (valBytes (entryAt (sortEntries entries) i).2).length) := by
  have hbf := builtFiles_eq basename entries ks hne hkeys hvals
  have h1 : (builtFiles basename entries).1 =
      packHeader ks entries.length ++ serializeIndex 0 (sortEntries entries) := by
    rw [hbf]
  have hsk : ∀ e ∈ sortEntries entries, (rawKey e.1).length = ks :=
    fun e he => (hkeys e ((perm_sortEntries entries).mem_iff.mp he)).2
  have hsl : (sortEntries entries).length = entries.length :=
    (perm_sortEntries entries).length_eq
  have hi2 : i < (sortEntries entries).length := by rw [hsl]; exact hi
  have hmem : entryAt (sortEntries entries) i ∈ entries := by
    refine (perm_sortEntries entries).mem_iff.mp ?_
    simp only [entryAt]
    rw [List.getD_eq_get _ _ hi2]
    exact List.get_mem _ _ _
  have hsum : ((sortEntries entries).map fun e => (valBytes e.2).length).sum =
      (entries.map fun e => (valBytes e.2).length).sum :=
    ((perm_sortEntries entries).map _).sum_eq
  have hoff : prefLen (sortEntries entries) i < 2 ^ 64 := by
    have := prefLen_add_le (sortEntries entries) i hi2
    rw [hsum] at this
    omega
  have hlen : (valBytes (entryAt (sortEntries entries) i).2).length < 2 ^ 32 :=
    hlens _ hmem
  simp only [offset_and_length, builtStore, record_size, OFFSET_SIZE]
  rw [h1]
  have hdr1 : (packHeader ks entries.length ++ serializeIndex 0 (sortEntries entries)).drop
      (HEADER_SIZE + i * (ks + 12) + ks) =
      (serializeIndex 0 (sortEntries entries)).drop (i * (ks + 12) + ks) := by
    have hd := @List.drop_append Nat (packHeader ks entries.length)
      (serializeIndex 0 (sortEntries entries)) (i * (ks + 12) + ks)
    rw [packHeader_length] at hd
    rw [← hd]
    congr 1
    simp [HEADER_SIZE]
    omega
  have hdr2 : (packHeader ks entries.length ++ serializeIndex 0 (sortEntries entries)).drop
      (HEADER_SIZE + i * (ks + 12) + ks + 8) =
      (serializeIndex 0 (sortEntries entries)).drop (i * (ks + 12) + ks + 8) := by
    have hd := @List.drop_append Nat (packHeader ks entries.length)
      (serializeIndex 0 (sortEntries entries)) (i * (ks + 12) + ks + 8)
    rw [packHeader_length] at hd
    rw [← hd]
    congr 1
    simp [HEADER_SIZE]
    omega
  rw [hdr1, hdr2,
    serializeIndex_off_slice ks (sortEntries entries) 0 i hsk hi2,
    serializeIndex_len_slice ks (sortEntries entries) 0 i hsk hi2,
    Nat.zero_add,
    leDecode_le64 _ hoff, leDecode_le32 _ hlen]

/-! ### Sortedness of the built record array -/

theorem sortEntries_pairwise_lt (entries : List (PyKey × PyValue))
    (hnd : (entries.map fun e => rawKey e.1).Nodup) :
    (sortEntries entries).Pairwise
      (fun a b => bytesLt (rawKey a.1) (rawKey b.1) = true) := by
  have hs := sorted_sortEntries entries
  have hnd2 : ((sortEntries entries).map fun e => rawKey e.1).Nodup :=
    (((perm_sortEntries entries).map _).nodup_iff).mpr hnd
  have hne : (sortEntries entries).Pairwise (fun a b => rawKey a.1 ≠ rawKey b.1) :=
    List.pairwise_map.mp hnd2
  have hand := hs.and hne
  refine hand.imp ?_
  intro a b hab
  obtain ⟨hle, hneq⟩ := hab
  rcases bytesLt_trichotomy (rawKey a.1) (rawKey b.1) with h1 | h1 | h1
  · exact absurd h1 hneq
  · exact h1
  · exfalso
    simp only [entryLe] at hle
    rw [h1] at hle
    cases hle

theorem builtStore_sorted_keys (basename : String) (entries : List (PyKey × PyValue))
    (ks : Nat) (hne : entries ≠ [])
    (hkeys : ∀ e ∈ entries, (keyBytes e.1).isSome = true ∧ (rawKey e.1).length = ks)
    (hvals : ∀ e ∈ entries, (seqToBytes e.2).isSome = true)
    (hnd : (entries.map fun e => rawKey e.1).Nodup) :
    ∀ i j : Nat, i < j → j < entries.length →
      bytesLt (key_at (builtStore basename ks entries) i)
        (key_at (builtStore basename ks entries) j) = true := by
  intro i j hij hj
  have hi : i < entries.length := lt_trans hij hj
  rw [builtStore_key_at basename entries ks hne hkeys hvals i hi,
    builtStore_key_at basename entries ks hne hkeys hvals j hj]
  have hp := sortEntries_pairwise_lt entries hnd
  rw [List.pairwise_iff_get] at hp
  have hsl : (sortEntries entries).length = entries.length :=
    (perm_sortEntries entries).length_eq
  have hi2 : i < (sortEntries entries).length := by omega
  have hj2 : j < (sortEntries entries).length := by omega
  have hgi : entryAt (sortEntries entries) i = (sortEntries entries).get ⟨i, hi2⟩ := by
    simp only [entryAt]
    exact List.getD_eq_get _ _ hi2
  have hgj : entryAt (sortEntries entries) j = (sortEntries entries).get ⟨j, hj2⟩ := by
    simp only [entryAt]
    exact List.getD_eq_get _ _ hj2
  rw [hgi, hgj]
  exact hp ⟨i, hi2⟩ ⟨j, hj2⟩ hij

/-! ### Binary search correctness -/

theorem findLoopGo_not_found (st : SequenceMmapStore) (kb : List Nat)
    (fuel : Nat) (lo hi : Int) (hlo : 0 ≤ lo)
    (habs : ∀ j : Nat, lo ≤ (j : Int) → (j : Int) ≤ hi → key_at st j ≠ kb) :
    findLoopGo st kb fuel lo hi = -1 := by
  induction fuel generalizing lo hi with
  | zero => rfl
  | succ fuel ih =>
    by_cases hle : lo ≤ hi
    · have hmid : key_at st (((lo + hi) / 2).toNat) ≠ kb :=
        habs (((lo + hi) / 2).toNat) (by omega) (by omega)
      simp only [findLoopGo, if_pos hle, if_neg hmid]
      by_cases hblt : bytesLt (key_at st (((lo + hi) / 2).toNat)) kb = true
      · rw [if_pos hblt]
        exact ih ((lo + hi) / 2 + 1) hi (by omega)
          (fun j h1 h2 => habs j (by omega) h2)
      · rw [if_neg hblt]
        exact ih lo ((lo + hi) / 2 - 1) hlo
          (fun j h1 h2 => habs j h1 (by omega))
    · simp only [findLoopGo, if_neg hle]

theorem findLoopGo_found (st : SequenceMmapStore) (kb : List Nat)
    (hsorted : ∀ i j : Nat, i < j → j < st.count →
      bytesLt (key_at st i) (key_at st j) = true)
    (j : Nat) (hkey : key_at st j = kb)
    (fuel : Nat) (lo hi : Int)
    (hfuel : (hi + 1 - lo).toNat ≤ fuel)
    (hlo : 0 ≤ lo) (hhi : hi < (st.count : Int))
    (hjlo : lo ≤ (j : Int)) (hjhi : (j : Int) ≤ hi) :
    findLoopGo st kb fuel lo hi = (j : Int) := by
  induction fuel generalizing lo hi with
  | zero => omega
  | succ fuel ih =>
    have hle : lo ≤ hi := le_trans hjlo hjhi
    have hmnat : ((((lo + hi) / 2).toNat : Int)) = (lo + hi) / 2 :=
      Int.toNat_of_nonneg (by omega)
    have hmcnt : (((lo + hi) / 2).toNat) < st.count := by omega
    by_cases heq : key_at st (((lo + hi) / 2).toNat) = kb
    · simp only [findLoopGo, if_pos hle, if_pos heq]
      rcases Nat.lt_trichotomy (((lo + hi) / 2).toNat) j with h1 | h1 | h1
      · have hc := hsorted _ j h1 (by omega)
        rw [heq, hkey, bytesLt_irrefl] at hc
        cases hc
      · omega
      · have hc := hsorted j _ h1 hmcnt
        rw [heq, hkey, bytesLt_irrefl] at hc
        cases hc
    · by_cases hblt : bytesLt (key_at st (((lo + hi) / 2).toNat)) kb = true
      · simp only [findLoopGo, if_pos hle, if_neg heq, if_pos hblt]
        have hjgt : (lo + hi) / 2 < (j : Int) := by
          rcases Nat.lt_trichotomy (((lo + hi) / 2).toNat) j with h1 | h1 | h1
          · omega
          · rw [h1, hkey] at heq
            exact absurd rfl heq
          · have hc := hsorted j _ h1 hmcnt
            rw [hkey] at hc
            have := bytesLt_trans hc hblt
            rw [bytesLt_irrefl] at this
            cases this
        exact ih ((lo + hi) / 2 + 1) hi (by omega) (by omega) hhi (by omega) hjhi
      · simp only [findLoopGo, if_pos hle, if_neg heq, if_neg hblt]
        have hjlt : (j : Int) < (lo + hi) / 2 := by
          rcases Nat.lt_trichotomy j (((lo + hi) / 2).toNat) with h1 | h1 | h1
          · omega
          · rw [← h1, hkey] at heq
            exact absurd rfl heq
          · have hc := hsorted _ j h1 (by omega)
            rw [hkey] at hc
            exact absurd hc hblt
        exact ih lo ((lo + hi) / 2 - 1) (by omega) hlo (by omega) hjlo (by omega)

theorem findLoopGo_sound (st : SequenceMmapStore) (kb : List Nat)
    (fuel : Nat) (lo hi : Int)
    (hlo : 0 ≤ lo) (hhi : hi < (st.count : Int))
    (hne : findLoopGo st kb fuel lo hi ≠ -1) :
    ∃ m : Nat, findLoopGo st kb fuel lo hi = (m : Int) ∧ m < st.count ∧
      key_at st m = kb := by
  induction fuel generalizing lo hi with
  | zero => exact absurd rfl hne
  | succ fuel ih =>
    by_cases hle : lo ≤ hi
    · by_cases heq : key_at st (((lo + hi) / 2).toNat) = kb
      · refine ⟨(((lo + hi) / 2).toNat), ?_, by omega, heq⟩
        simp only [findLoopGo, if_pos hle, if_pos heq]
        omega
      · by_cases hblt : bytesLt (key_at st (((lo + hi) / 2).toNat)) kb = true
        · have hstep : findLoopGo st kb (fuel + 1) lo hi =
              findLoopGo st kb fuel ((lo + hi) / 2 + 1) hi := by
            simp only [findLoopGo, if_pos hle, if_neg heq, if_pos hblt]
          rw [hstep] at hne ⊢
          exact ih ((lo + hi) / 2 + 1) hi (by omega) hhi hne
        · have hstep : findLoopGo st kb (fuel + 1) lo hi =
              findLoopGo st kb fuel lo ((lo + hi) / 2 - 1) := by
            simp only [findLoopGo, if_pos hle, if_neg heq, if_neg hblt]
          rw [hstep] at hne ⊢
          exact ih lo ((lo + hi) / 2 - 1) hlo (by omega) hne
    · have hstep : findLoopGo st kb (fuel + 1) lo hi = -1 := by
        simp only [findLoopGo, if_neg hle]
      exact absurd hstep hne

/-! ### Lookups on a built store -/

theorem built_find_entry (basename : String) (entries : List (PyKey × PyValue)) (ks : Nat)
    (hne : entries ≠ [])
    (hkeys : ∀ e ∈ entries, (keyBytes e.1).isSome = true ∧ (rawKey e.1).length = ks)
    (hvals : ∀ e ∈ entries, (seqToBytes e.2).isSome = true)
    (hnd : (entries.map fun e => rawKey e.1).Nodup)
    (k : PyKey) (v : PyValue) (hmem : (k, v) ∈ entries) :
    ∃ m : Nat, m < entries.length ∧
      find_index (builtStore basename ks entries) k = (m : Int) ∧
      entryAt (sortEntries entries) m = (k, v) := by
  obtain ⟨hksome, hklen⟩ := hkeys (k, v) hmem
  cases k with
  | nonBytes => simp [keyBytes] at hksome
  | bytes kb =>
    have hlen : kb.length = ks := by simpa [rawKey, keyBytes] using hklen
    have hmem2 : (PyKey.bytes kb, v) ∈ sortEntries entries :=
      (perm_sortEntries entries).mem_iff.mpr hmem
    obtain ⟨p, hp⟩ := List.mem_iff_get.mp hmem2
    have hsl : (sortEntries entries).length = entries.length :=
      (perm_sortEntries entries).length_eq
    have hplt : p.val < entries.length := by rw [← hsl]; exact p.isLt
    have hent : entryAt (sortEntries entries) p.val = (PyKey.bytes kb, v) := by
      simp only [entryAt]
      rw [List.getD_eq_get _ _ p.isLt]
      exact hp
    have hkey_at : key_at (builtStore basename ks entries) p.val = kb := by
      rw [builtStore_key_at basename entries ks hne hkeys hvals p.val hplt, hent]
      simp [rawKey, keyBytes]
    refine ⟨p.val, hplt, ?_, hent⟩
    have hsorted := builtStore_sorted_keys basename entries ks hne hkeys hvals hnd
    simp only [find_index, keyBytes, builtStore, if_pos hlen, findLoop]
    refine findLoopGo_found (builtStore basename ks entries) kb hsorted p.val hkey_at
      _ 0 ((entries.length : Int) - 1) (by omega) (by omega) ?_ (by omega) (by omega)
    show ((entries.length : Int) - 1) < ((entries.length : Int))
    omega

theorem built_getValue_eq (basename : String) (entries : List (PyKey × PyValue)) (ks : Nat)
    (hne : entries ≠ [])
    (hkeys : ∀ e ∈ entries, (keyBytes e.1).isSome = true ∧ (rawKey e.1).length = ks)
    (hvals : ∀ e ∈ entries, (seqToBytes e.2).isSome = true)
    (hnd : (entries.map fun e => rawKey e.1).Nodup)
    (hlens : ∀ e ∈ entries, (valBytes e.2).length < 2 ^ 32)
    (htot : (entries.map fun e => (valBytes e.2).length).sum < 2 ^ 64)
    (k : PyKey) (v : PyValue) (hmem : (k, v) ∈ entries)
    (hascii : (valBytes v).all (fun b => b < 128) = true)
    (d : Option (List Nat)) :
    getValue (builtStore basename ks entries) k d = Except.ok (some (valBytes v)) := by
  obtain ⟨m, hmlt, hfind, hent⟩ :=
    built_find_entry basename entries ks hne hkeys hvals hnd k v hmem
  have hol := builtStore_offset_and_length basename entries ks hne hkeys hvals hlens htot
    m hmlt
  rw [hent] at hol
  have hsl : (sortEntries entries).length = entries.length :=
    (perm_sortEntries entries).length_eq
  have hdata : (builtStore basename ks entries).data_mm =
      serializeData (sortEntries entries) := by
    simp only [builtStore]
    rw [builtFiles_eq basename entries ks hne hkeys hvals]
  have hslice := serializeData_slice (sortEntries entries) m (by omega)
  rw [hent] at hslice
  have htn : ((m : Int)).toNat = m := rfl
  simp only [getValue, hfind, htn]
  rw [if_neg (by omega : ¬ ((m : Int) < 0)), hdata, hol, hslice]
  simp only [decodeAscii, hascii, if_pos]

theorem built_contains_iff (basename : String) (entries : List (PyKey × PyValue)) (ks : Nat)
    (hne : entries ≠ [])
    (hkeys : ∀ e ∈ entries, (keyBytes e.1).isSome = true ∧ (rawKey e.1).length = ks)
    (hvals : ∀ e ∈ entries, (seqToBytes e.2).isSome = true)
    (hnd : (entries.map fun e => rawKey e.1).Nodup)
    (q : PyKey) :
    containsKey (builtStore basename ks entries) q = true ↔
      ∃ kb, q = PyKey.bytes kb ∧ kb ∈ entries.map (fun e => rawKey e.1) := by
  cases q with
  | nonBytes =>
    constructor
    · intro h
      simp [containsKey, find_index, keyBytes] at h
    · rintro ⟨kb, hq, _⟩
      cases hq
  | bytes kb =>
    constructor
    · intro h
      by_cases hlen : kb.length = ks
      · have hlen2 : kb.length = (builtStore basename ks entries).key_size := hlen
        have hfi : find_index (builtStore basename ks entries) (PyKey.bytes kb) =
            findLoopGo (builtStore basename ks entries) kb
              ((((builtStore basename ks entries).count : Int) - 1 + 1 - 0).toNat) 0
              (((builtStore basename ks entries).count : Int) - 1) := by
          simp only [find_index, keyBytes, if_pos hlen2, findLoop]
        simp only [containsKey, decide_eq_true_eq, hfi] at h
        have hne2 : findLoopGo (builtStore basename ks entries) kb
            ((((builtStore basename ks entries).count : Int) - 1 + 1 - 0).toNat) 0
            (((builtStore basename ks entries).count : Int) - 1) ≠ -1 := by
          intro hc
          rw [hc] at h
          omega
        obtain ⟨m, hmeq, hmlt, hkat⟩ := findLoopGo_sound (builtStore basename ks entries)
          kb _ 0 (((builtStore basename ks entries).count : Int) - 1) (by omega)
          (by omega) hne2
        have hkat2 := builtStore_key_at basename entries ks hne hkeys hvals m hmlt
        rw [hkat] at hkat2
        refine ⟨kb, rfl, ?_⟩
        rw [List.mem_map]
        refine ⟨entryAt (sortEntries entries) m, ?_, hkat2.symm⟩
        have hm2 : m < (sortEntries entries).length := by
          rw [(perm_sortEntries entries).length_eq]
          exact hmlt
        refine (perm_sortEntries entries).mem_iff.mp ?_
        simp only [entryAt]
        rw [List.getD_eq_get _ _ hm2]
        exact List.get_mem _ _ _
      · exfalso
        have hlen2 : ¬ (kb.length = (builtStore basename ks entries).key_size) := hlen
        simp only [containsKey, find_index, keyBytes, if_neg hlen2,
          decide_eq_true_eq] at h
        omega
    · rintro ⟨kb2, hq, hin⟩
      cases hq
      obtain ⟨e, he, hek⟩ := List.mem_map.mp hin
      obtain ⟨hsome, hlen0⟩ := hkeys e he
      have hk : e.1 = PyKey.bytes kb := by
        cases hke : e.1 with
        | nonBytes => rw [hke] at hsome; simp [keyBytes] at hsome
        | bytes b =>
          rw [hke] at hek
          simp only [rawKey, keyBytes, Option.getD_some] at hek
          rw [hek]
      obtain ⟨m, hmlt, hfind, hent⟩ := built_find_entry basename entries ks hne hkeys hvals
        hnd e.1 e.2 (by simpa using he)
      rw [hk] at hfind
      simp only [containsKey, hfind, decide_eq_true_eq]
      omega

/-- C1: for a non-empty mapping whose keys are byte sequences of one
common length `ks` (distinct, as keys of a mapping are), whose values
encode (text values are ASCII) and have all value bytes in the 0–127
range, and within the format's field bounds, building the store and
opening the resulting pair of files yields a reader on which `get` at
each original key returns exactly the original value's bytes (as the
ASCII-decoded text whose character codes are those bytes), for any
default. -/
theorem roundtrip_build_open_get (basename p : String)
    (entries : List (PyKey × PyValue)) (ks : Nat) (st : SequenceMmapStore)
    (hne : entries ≠ [])
    (hkeys : ∀ e ∈ entries, (keyBytes e.1).isSome = true ∧ (rawKey e.1).length = ks)
    (hnd : (entries.map fun e => rawKey e.1).Nodup)
    (hvals : ∀ e ∈ entries, (seqToBytes e.2).isSome = true)
    (hks : ks < 2 ^ 32) (hcnt : entries.length < 2 ^ 64)
    (hlens : ∀ e ∈ entries, (valBytes e.2).length < 2 ^ 32)
    (htot : (entries.map fun e => (valBytes e.2).length).sum < 2 ^ 64)
    (hopen : initStore p (builtFiles basename entries).1 (builtFiles basename entries).2 =
      Except.ok st)
    (k : PyKey) (v : PyValue) (hmem : (k, v) ∈ entries)
    (hascii : (valBytes v).all (fun b => b < 128) = true)
    (d : Option (List Nat)) :
    getValue st k d = Except.ok (some (valBytes v)) := by
  rw [initStore_built p basename entries ks hne hkeys hvals hks hcnt] at hopen
  cases hopen
  exact built_getValue_eq basename entries ks hne hkeys hvals hnd hlens htot
    k v hmem hascii d

/-- Witness for C1 at a concrete two-entry store: both the byte-sequence
value and the text value round-trip. -/
theorem roundtrip_build_open_get_witness :
    getValue (builtStore "s" 2 exampleEntries) (PyKey.bytes [65, 66]) none =
      Except.ok (some (valBytes (PyValue.bytes [1, 127]))) ∧
    getValue (builtStore "s" 2 exampleEntries) (PyKey.bytes [90, 90])
      (some [0]) = Except.ok (some (valBytes (PyValue.str [104, 105]))) :=
  ⟨roundtrip_build_open_get "s" "p" exampleEntries 2 (builtStore "s" 2 exampleEntries)
    (by decide) (by decide) (by decide) (by decide) (by decide) (by decide) (by decide)
    (by decide) (by decide)
    (PyKey.bytes [65, 66]) (PyValue.bytes [1, 127]) (by decide) (by decide) none,
   roundtrip_build_open_get "s" "p" exampleEntries 2 (builtStore "s" 2 exampleEntries)
    (by decide) (by decide) (by decide) (by decide) (by decide) (by decide) (by decide)
    (by decide) (by decide)
    (PyKey.bytes [90, 90]) (PyValue.str [104, 105]) (by decide) (by decide) (some [0])⟩

/-- C2: on a store built from `N` distinct fixed-length byte-sequence
keys, `__contains__` (i.e. `_find_index(key) >= 0`) holds exactly for
those `N` keys: any other query — a byte sequence of the same or of a
different length, or a non-byte-sequence object — is a miss (the model is
a total function, so the miss is a returned `-1`, not an error). -/
theorem contains_iff_built_keys (basename p : String)
    (entries : List (PyKey × PyValue)) (ks : Nat) (st : SequenceMmapStore)
    (hne : entries ≠ [])
    (hkeys : ∀ e ∈ entries, (keyBytes e.1).isSome = true ∧ (rawKey e.1).length = ks)
    (hnd : (entries.map fun e => rawKey e.1).Nodup)
    (hvals : ∀ e ∈ entries, (seqToBytes e.2).isSome = true)
    (hks : ks < 2 ^ 32) (hcnt : entries.length < 2 ^ 64)
    (hopen : initStore p (builtFiles basename entries).1 (builtFiles basename entries).2 =
      Except.ok st)
    (q : PyKey) :
    containsKey st q = true ↔
      ∃ kb, q = PyKey.bytes kb ∧ kb ∈ entries.map (fun e => rawKey e.1) := by
  rw [initStore_built p basename entries ks hne hkeys hvals hks hcnt] at hopen
  cases hopen
  exact built_contains_iff basename entries ks hne hkeys hvals hnd q

/-- Witness for C2: a present key, an absent same-length key, an absent
shorter key, and a non-byte-sequence query on a concrete store. -/
theorem contains_iff_built_keys_witness :
    (containsKey (builtStore "s" 2 exampleEntries) (PyKey.bytes [90, 90]) = true) ∧
    (containsKey (builtStore "s" 2 exampleEntries) (PyKey.bytes [65, 67]) = false) ∧
    (containsKey (builtStore "s" 2 exampleEntries) (PyKey.bytes [65]) = false) ∧
    (containsKey (builtStore "s" 2 exampleEntries) PyKey.nonBytes = false) := by
  have h := contains_iff_built_keys "s" "p" exampleEntries 2
    (builtStore "s" 2 exampleEntries)
    (by decide) (by decide) (by decide) (by decide) (by decide) (by decide) (by decide)
  refine ⟨(h (PyKey.bytes [90, 90])).mpr ⟨[90, 90], rfl, by decide⟩, ?_, ?_, ?_⟩
  · cases hc : containsKey (builtStore "s" 2 exampleEntries) (PyKey.bytes [65, 67]) with
    | false => rfl
    | true =>
      obtain ⟨kb, hq, hin⟩ := (h (PyKey.bytes [65, 67])).mp hc
      cases hq
      exact absurd hin (by decide)
  · cases hc : containsKey (builtStore "s" 2 exampleEntries) (PyKey.bytes [65]) with
    | false => rfl
    | true =>
      obtain ⟨kb, hq, hin⟩ := (h (PyKey.bytes [65])).mp hc
      cases hq
      exact absurd hin (by decide)
  · cases hc : containsKey (builtStore "s" 2 exampleEntries) PyKey.nonBytes with
    | false => rfl
    | true =>
      obtain ⟨kb, hq, hin⟩ := (h PyKey.nonBytes).mp hc
      cases hq

/-- C9: on every store produced by a valid build, the key stored at record
index `i` is strictly below the key at record index `i + 1` in unsigned
lexicographic byte order, for every valid `i`. -/
theorem built_ordering_invariant (basename p : String)
    (entries : List (PyKey × PyValue)) (ks : Nat) (st : SequenceMmapStore)
    (hne : entries ≠ [])
    (hkeys : ∀ e ∈ entries, (keyBytes e.1).isSome = true ∧ (rawKey e.1).length = ks)
    (hnd : (entries.map fun e => rawKey e.1).Nodup)
    (hvals : ∀ e ∈ entries, (seqToBytes e.2).isSome = true)
    (hks : ks < 2 ^ 32) (hcnt : entries.length < 2 ^ 64)
    (hopen : initStore p (builtFiles basename entries).1 (builtFiles basename entries).2 =
      Except.ok st)
    (i : Nat) (hi : i + 1 < st.count) :
    bytesLt (key_at st i) (key_at st (i + 1)) = true := by
  rw [initStore_built p basename entries ks hne hkeys hvals hks hcnt] at hopen
  cases hopen
  have hi2 : i + 1 < entries.length := hi
  exact builtStore_sorted_keys basename entries ks hne hkeys hvals hnd i (i + 1)
    (Nat.lt_succ_self i) hi2

/-- Witness for C9: the concrete store's two records are in strict key
order. -/
theorem built_ordering_invariant_witness :
    bytesLt (key_at (builtStore "s" 2 exampleEntries) 0)
      (key_at (builtStore "s" 2 exampleEntries) 1) = true :=
  built_ordering_invariant "s" "p" exampleEntries 2 (builtStore "s" 2 exampleEntries)
    (by decide) (by decide) (by decide) (by decide) (by decide) (by decide) (by decide)
    0 (by decide)

/-- C10: a present key whose stored value is empty is distinguishable from
a missing key: `get` returns the empty text value whatever the default
is, and `__getitem__` returns the empty text value instead of raising
`KeyError`. -/
theorem empty_value_present_not_missing (basename p : String)
    (entries : List (PyKey × PyValue)) (ks : Nat) (st : SequenceMmapStore)
    (hne : entries ≠ [])
    (hkeys : ∀ e ∈ entries, (keyBytes e.1).isSome = true ∧ (rawKey e.1).length = ks)
    (hnd : (entries.map fun e => rawKey e.1).Nodup)
    (hvals : ∀ e ∈ entries, (seqToBytes e.2).isSome = true)
    (hks : ks < 2 ^ 32) (hcnt : entries.length < 2 ^ 64)
    (hlens : ∀ e ∈ entries, (valBytes e.2).length < 2 ^ 32)
    (htot : (entries.map fun e => (valBytes e.2).length).sum < 2 ^ 64)
    (hopen : initStore p (builtFiles basename entries).1 (builtFiles basename entries).2 =
      Except.ok st)
    (k : PyKey) (v : PyValue) (hmem : (k, v) ∈ entries)
    (hemp : valBytes v = []) :
    (∀ d, getValue st k d = Except.ok (some [])) ∧ getItem st k = Except.ok [] := by
  rw [initStore_built p basename entries ks hne hkeys hvals hks hcnt] at hopen
  cases hopen
  have hget : ∀ d, getValue (builtStore basename ks entries) k d =
      Except.ok (some (valBytes v)) :=
    fun d => built_getValue_eq basename entries ks hne hkeys hvals hnd hlens htot
      k v hmem (by rw [hemp]; rfl) d
  constructor
  · intro d
    rw [hget d, hemp]
  · rw [getItem, hget none, hemp]

/-- Witness for C10 at a store holding one key with the empty value: `get`
with a non-empty default still returns the empty text, and `__getitem__`
does not raise. -/
theorem empty_value_present_not_missing_witness :
    getValue (builtStore "s" 1 [(PyKey.bytes [65], PyValue.str [])])
      (PyKey.bytes [65]) (some [99]) = Except.ok (some []) ∧
    getItem (builtStore "s" 1 [(PyKey.bytes [65], PyValue.str [])])
      (PyKey.bytes [65]) = Except.ok [] :=
  ⟨(empty_value_present_not_missing "s" "p" [(PyKey.bytes [65], PyValue.str [])] 1
    (builtStore "s" 1 [(PyKey.bytes [65], PyValue.str [])])
    (by decide) (by decide) (by decide) (by decide) (by decide) (by decide) (by decide)
    (by decide) (by decide)
    (PyKey.bytes [65]) (PyValue.str []) (by decide) (by decide)).1 (some [99]),
   (empty_value_present_not_missing "s" "p" [(PyKey.bytes [65], PyValue.str [])] 1
    (builtStore "s" 1 [(PyKey.bytes [65], PyValue.str [])])
    (by decide) (by decide) (by decide) (by decide) (by decide) (by decide) (by decide)
    (by decide) (by decide)
    (PyKey.bytes [65]) (PyValue.str []) (by decide) (by decide)).2⟩

/-- C3 counterexample: a byte-sequence value containing byte 200 is stored
raw in the data file (`[200]`), yet `get` on its key raises
`UnicodeDecodeError` instead of returning the value — the claimed
build-then-get round-trip fails for values with bytes outside 0–127. -/
theorem non_ascii_get_counterexample :
    dataFileBytes (build_sequence_store "s" [(PyKey.bytes [65], PyValue.bytes [200])]).1 =
      [200] ∧
    openAndGet "s" [(PyKey.bytes [65], PyValue.bytes [200])] (PyKey.bytes [65]) =
      some (Except.error GetError.unicodeDecodeError) := by
  constructor
  · rfl
  · decide

/-- C3 amended: a byte-sequence value with a byte outside 0–127 is written
to the data file unchanged — the record's offset/length slice of the data
mapping is exactly the original bytes — but `get` on its key fails with a
decode error (it always ASCII-decodes the slice), so only values whose
bytes all lie in 0–127 round-trip through `get`. -/
theorem non_ascii_stored_raw_but_get_fails (basename p : String)
    (entries : List (PyKey × PyValue)) (ks : Nat) (st : SequenceMmapStore)
    (hne : entries ≠ [])
    (hkeys : ∀ e ∈ entries, (keyBytes e.1).isSome = true ∧ (rawKey e.1).length = ks)
    (hnd : (entries.map fun e => rawKey e.1).Nodup)
    (hvals : ∀ e ∈ entries, (seqToBytes e.2).isSome = true)
    (hks : ks < 2 ^ 32) (hcnt : entries.length < 2 ^ 64)
    (hlens : ∀ e ∈ entries, (valBytes e.2).length < 2 ^ 32)
    (htot : (entries.map fun e => (valBytes e.2).length).sum < 2 ^ 64)
    (hopen : initStore p (builtFiles basename entries).1 (builtFiles basename entries).2 =
      Except.ok st)
    (k : PyKey) (v : PyValue) (hmem : (k, v) ∈ entries)
    (hnon : (valBytes v).all (fun b => b < 128) = false)
    (d : Option (List Nat)) :
    getValue st k d = Except.error GetError.unicodeDecodeError ∧
    (∃ m : Nat, find_index st k = (m : Int) ∧
      (st.data_mm.drop (offset_and_length st m).1).take (offset_and_length st m).2 =
        valBytes v) := by
  rw [initStore_built p basename entries ks hne hkeys hvals hks hcnt] at hopen
  cases hopen
  obtain ⟨m, hmlt, hfind, hent⟩ :=
    built_find_entry basename entries ks hne hkeys hvals hnd k v hmem
  have hol := builtStore_offset_and_length basename entries ks hne hkeys hvals hlens htot
    m hmlt
  rw [hent] at hol
  have hsl : (sortEntries entries).length = entries.length :=
    (perm_sortEntries entries).length_eq
  have hdata : (builtStore basename ks entries).data_mm =
      serializeData (sortEntries entries) := by
    simp only [builtStore]
    rw [builtFiles_eq basename entries ks hne hkeys hvals]
  have hslice := serializeData_slice (sortEntries entries) m (by omega)
  rw [hent] at hslice
  have htn : ((m : Int)).toNat = m := rfl
  constructor
  · simp only [getValue, hfind, htn]
    rw [if_neg (by omega : ¬ ((m : Int) < 0)), hdata, hol, hslice]
    simp only [decodeAscii, hnon, Bool.false_eq_true, if_false]
  · refine ⟨m, hfind, ?_⟩
    rw [hdata, hol, hslice]

/-- Witness for the amended C3 on a one-entry store whose value is the
single byte 200. -/
theorem non_ascii_stored_raw_but_get_fails_witness :
    getValue (builtStore "s" 1 [(PyKey.bytes [65], PyValue.bytes [200])])
      (PyKey.bytes [65]) none = Except.error GetError.unicodeDecodeError ∧
    (∃ m : Nat, find_index (builtStore "s" 1 [(PyKey.bytes [65], PyValue.bytes [200])])
        (PyKey.bytes [65]) = (m : Int) ∧
      ((builtStore "s" 1 [(PyKey.bytes [65], PyValue.bytes [200])]).data_mm.drop
        (offset_and_length (builtStore "s" 1 [(PyKey.bytes [65], PyValue.bytes [200])]) m).1).take
        (offset_and_length (builtStore "s" 1 [(PyKey.bytes [65], PyValue.bytes [200])]) m).2 =
        valBytes (PyValue.bytes [200])) :=
  non_ascii_stored_raw_but_get_fails "s" "p" [(PyKey.bytes [65], PyValue.bytes [200])] 1
    (builtStore "s" 1 [(PyKey.bytes [65], PyValue.bytes [200])])
    (by decide) (by decide) (by decide) (by decide) (by decide) (by decide) (by decide)
    (by decide) (by decide)
    (PyKey.bytes [65]) (PyValue.bytes [200]) (by decide) (by decide) none

/-- C4 counterexample: opening a 20-byte index file of zeros (magic
mismatch) raises the `ValueError` naming the index path, after acquiring
both file handles and both mappings — but the released list on this exit
path is empty: neither mapping nor handle is released by `__init__`. -/
theorem init_bad_magic_counterexample :
    (initTrace "bad.mmidx" (List.replicate 20 0) [0]).2.2 =
      some (InitError.badMagic "bad.mmidx") ∧
    (initTrace "bad.mmidx" (List.replicate 20 0) [0]).1 =
      [Resource.indexFd, Resource.dataFd, Resource.indexMm, Resource.dataMm] ∧
    (initTrace "bad.mmidx" (List.replicate 20 0) [0]).2.1 = [] ∧
    ¬ (Resource.indexMm ∈ (initTrace "bad.mmidx" (List.replicate 20 0) [0]).2.1 ∧
       Resource.dataMm ∈ (initTrace "bad.mmidx" (List.replicate 20 0) [0]).2.1) := by
  refine ⟨rfl, rfl, rfl, ?_⟩
  rintro ⟨h, _⟩
  simp [initTrace] at h

/-- C4 amended: for every index file of at least header size whose first 8
bytes differ from the magic tag, construction fails with the error naming
the index path, but performs no release: all four resources (both file
handles, both mappings) are acquired and the explicitly-released list is
empty on this exit path (cleanup is left to garbage collection). -/
theorem init_bad_magic_raises_without_release (p : String) (idx d : List Nat)
    (hlen : HEADER_SIZE ≤ idx.length) (hmag : idx.take 8 ≠ MAGIC) :
    initTrace p idx d =
      ([Resource.indexFd, Resource.dataFd, Resource.indexMm, Resource.dataMm], [],
        some (InitError.badMagic p)) := by
  have hinit : initStore p idx d = Except.error (InitError.badMagic p) := by
    rw [initStore, if_neg (by omega : ¬ idx.length < HEADER_SIZE), if_neg hmag]
  simp only [initTrace, hinit]

/-- Witness for the amended C4 on a 20-byte all-zero index file. -/
theorem init_bad_magic_raises_without_release_witness :
    initTrace "bad.mmidx" (List.replicate 20 0) [0] =
      ([Resource.indexFd, Resource.dataFd, Resource.indexMm, Resource.dataMm], [],
        some (InitError.badMagic "bad.mmidx")) :=
  init_bad_magic_raises_without_release "bad.mmidx" (List.replicate 20 0) [0]
    (by decide) (by decide)

/-- C5: `close()` releases all four resources when no release fails, but
when closing the index mapping raises, only the index mapping and index
handle closes are attempted — the exception propagates out of the first
`try/finally` and the data mapping and data handle are never released,
contradicting the claim that a failure on one resource never leaks the
other. -/
theorem close_skips_data_release_on_index_error :
    closeTrace ⟨false, false, false, false⟩ =
      ([Resource.indexMm, Resource.indexFd, Resource.dataMm, Resource.dataFd], false) ∧
    closeTrace ⟨true, false, false, false⟩ = ([Resource.indexMm, Resource.indexFd], true) ∧
    ¬ Resource.dataMm ∈ (closeTrace ⟨true, false, false, false⟩).1 ∧
    ¬ Resource.dataFd ∈ (closeTrace ⟨true, false, false, false⟩).1 ∧
    closeTrace ⟨false, true, false, false⟩ = ([Resource.indexMm, Resource.indexFd], true) := by
  decide

/-- C6: on a non-empty input in which some key is not a byte sequence or
two keys have different lengths, the build fails with one of the two
`ValueError`s naming the store's basename, and its I/O trace is empty: no
file is opened or written, so no partial on-disk state is produced. -/
theorem build_invalid_key_fails_before_io (basename : String)
    (entries : List (PyKey × PyValue)) (hne : entries ≠ [])
    (hbad : (∃ e ∈ entries, keyBytes e.1 = none) ∨
      (∃ e1 ∈ entries, ∃ e2 ∈ entries, (rawKey e1.1).length ≠ (rawKey e2.1).length)) :
    ∃ err, build_sequence_store basename entries = ([], some err) ∧
      (err = BuildError.keysMustBeBytes basename ∨
       err = BuildError.inconsistentKeySize basename) := by
  cases entries with
  | nil => exact absurd rfl hne
  | cons e0 rest =>
    obtain ⟨k0, v0⟩ := e0
    cases hkb : keyBytes k0 with
    | none =>
      refine ⟨BuildError.keysMustBeBytes basename, ?_, Or.inl rfl⟩
      simp only [build_sequence_store, hkb]
    | some kb0 =>
      cases hv : validateKeys basename kb0.length ((k0, v0) :: rest) with
      | some err =>
        refine ⟨err, ?_, validateKeys_some_shape basename kb0.length _ err hv⟩
        simp only [build_sequence_store, hkb, hv]
      | none =>
        exfalso
        have hall := (validateKeys_eq_none_iff basename kb0.length _).mp hv
        rcases hbad with ⟨e, he, hnone⟩ | ⟨e1, he1, e2, he2, hlen⟩
        · have := (hall e he).1
          rw [hnone] at this
          cases this
        · have h1 := (hall e1 he1).2
          have h2 := (hall e2 he2).2
          rw [h1, h2] at hlen
          exact hlen rfl

/-- Witness for C6: a non-byte key, and a pair of byte keys of different
lengths, each fails with the matching error and an empty I/O trace. -/
theorem build_invalid_key_fails_before_io_witness :
    (∃ err, build_sequence_store "s" [(PyKey.nonBytes, PyValue.str [97])] = ([], some err) ∧
      (err = BuildError.keysMustBeBytes "s" ∨ err = BuildError.inconsistentKeySize "s")) ∧
    (∃ err, build_sequence_store "s"
        [(PyKey.bytes [65], PyValue.str [97]), (PyKey.bytes [66, 67], PyValue.str [98])] =
        ([], some err) ∧
      (err = BuildError.keysMustBeBytes "s" ∨ err = BuildError.inconsistentKeySize "s")) :=
  ⟨build_invalid_key_fails_before_io "s" [(PyKey.nonBytes, PyValue.str [97])]
    (by decide) (Or.inl ⟨(PyKey.nonBytes, PyValue.str [97]), by decide, rfl⟩),
   build_invalid_key_fails_before_io "s"
    [(PyKey.bytes [65], PyValue.str [97]), (PyKey.bytes [66, 67], PyValue.str [98])]
    (by decide)
    (Or.inr ⟨(PyKey.bytes [65], PyValue.str [97]), by decide,
      (PyKey.bytes [66, 67], PyValue.str [98]), by decide, by decide⟩)⟩

/-- C7: building from an empty mapping returns at once with an empty I/O
trace — neither file is opened, created, or overwritten — and no error. -/
theorem build_empty_no_io (basename : String) :
    build_sequence_store basename [] = ([], none) := rfl

/-- C8 counterexample: on a one-entry build the trace opens both files and
then writes the index header before the single data write, so it is false
that every index-file write happens only after all data-file writes. -/
theorem interleaved_write_counterexample :
    (build_sequence_store "s" [(PyKey.bytes [65], PyValue.bytes [66])]).1 =
      [TraceEvent.openData, TraceEvent.openIndex,
       TraceEvent.writeIndex (packHeader 1 1), TraceEvent.writeData [66],
       TraceEvent.writeIndex [65], TraceEvent.writeIndex (packOffsetLen 0 1)] ∧
    indexAfterAllData
      (build_sequence_store "s" [(PyKey.bytes [65], PyValue.bytes [66])]).1 = false := by
  constructor
  · rfl
  · decide

/-- C8 amended: the build opens the data file then the index file, writes
the index header first, and then, for each entry in sorted key order,
writes that entry's value bytes to the data file before writing its index
record (key, then offset/length) — index writes are interleaved with data
writes rather than performed after all of them. -/
theorem build_write_interleaving (basename : String)
    (entries : List (PyKey × PyValue)) (ks : Nat)
    (hne : entries ≠ [])
    (hkeys : ∀ e ∈ entries, (keyBytes e.1).isSome = true ∧ (rawKey e.1).length = ks)
    (hvals : ∀ e ∈ entries, (seqToBytes e.2).isSome = true) :
    build_sequence_store basename entries =
      (TraceEvent.openData :: TraceEvent.openIndex ::
        TraceEvent.writeIndex (packHeader ks entries.length) ::
        (writeLoop 0 (sortEntries entries)).1, none) ∧
    dataBeforeItsRecord (writeLoop 0 (sortEntries entries)).1 = true := by
  refine ⟨build_sequence_store_eq basename entries ks hne hkeys hvals, ?_⟩
  exact writeLoop_interleaving 0 _
    (fun e he => hvals e ((perm_sortEntries entries).mem_iff.mp he))

/-- Witness for the amended C8 on the concrete two-entry input. -/
theorem build_write_interleaving_witness :
    build_sequence_store "s" exampleEntries =
      (TraceEvent.openData :: TraceEvent.openIndex ::
        TraceEvent.writeIndex (packHeader 2 exampleEntries.length) ::
        (writeLoop 0 (sortEntries exampleEntries)).1, none) ∧
    dataBeforeItsRecord (writeLoop 0 (sortEntries exampleEntries)).1 = true :=
  build_write_interleaving "s" exampleEntries 2 (by decide) (by decide) (by decide)
